import Mathlib

/-!
Verification of the locale-resolution middleware of the `nexcn` starter
template (`src/middleware.ts`).

The middleware receives a request with a URL pathname and an optional
`accept-language` header.  If the pathname already carries a supported
locale segment it passes the request through; otherwise it resolves the
best-matching locale from the header and redirects to the pathname
prefixed with that locale.

The constants `locales` / `defaultLocale`, the prefix test, the
`|| defaultLocale` header substitution and the redirect construction are
translated directly from `src/middleware.ts`.  The language-negotiation
library calls (`Negotiator.languages()` plus `match` of
`@formatjs/intl-localematcher`) and the URL serialization performed by
`NextResponse.redirect` are third-party code that is not part of the
repository's sources; those two pieces are modelled from the design
specification, as noted on the relevant definitions.
-/

namespace Nexcn

/-- The Supported Locale Set: `const locales = ["en", "ar"]` in
`src/middleware.ts`. -/
def locales : List String := ["en", "ar"]

/-- The Default Locale: `const defaultLocale = "en"` in `src/middleware.ts`. -/
def defaultLocale : String := "en"

/-- Outcome of one middleware invocation: the request is passed through
unchanged, or the client is redirected to a new path. -/
inductive RouteResult where
  | passThrough : RouteResult
  | redirectTo (newPath : String) : RouteResult
deriving DecidableEq

/-- JavaScript `pathname.startsWith(p)`, expressed on the character lists
underlying the two strings (JS strings are sequences of characters, so
`startsWith` is exactly the list-prefix test). -/
def startsWithStr (pathname p : String) : Bool :=
  p.data.isPrefixOf pathname.data

/-- The locale-prefix test of `src/middleware.ts` lines 20-22:
`locales.some(l => pathname.startsWith("/" + l + "/") || pathname === "/" + l)`. -/
def pathnameHasLocale (pathname : String) : Bool :=
  locales.any fun locale =>
    startsWithStr pathname ("/" ++ locale ++ "/") || pathname == ("/" ++ locale)

/-- Splits a character list at every occurrence of the separator `c`,
keeping (possibly empty) fragments; helper for the header parser. -/
def splitOnChar (c : Char) : List Char → List (List Char)
  | [] => [[]]
  | x :: xs =>
    let r := splitOnChar c xs
    if x = c then [] :: r
    else
      match r with
      | [] => [[x]]
      | y :: ys => (x :: y) :: ys

/-- Removes leading and trailing spaces from a character list. -/
def trimSpaces (l : List Char) : List Char :=
  ((l.dropWhile (fun c => c = ' ')).reverse.dropWhile (fun c => c = ' ')).reverse

/-- Decimal-digit test. -/
def isDigitChar (c : Char) : Bool := '0' ≤ c && c ≤ '9'

/-- Numeric value of a decimal digit. -/
def digitVal (c : Char) : Nat := c.toNat - '0'.toNat

/-- Accumulating decimal reader; fails on any non-digit. -/
def natOfDigitsGo (acc : Nat) : List Char → Option Nat
  | [] => some acc
  | c :: cs => if isDigitChar c then natOfDigitsGo (10 * acc + digitVal c) cs else none

/-- Reads a non-empty all-digit character list as a natural number. -/
def natOfDigits (l : List Char) : Option Nat :=
  match l with
  | [] => none
  | _ => natOfDigitsGo 0 l

/-- Reads a fractional part of one to three digits as thousandths. -/
def fracMilli (l : List Char) : Option Nat :=
  match l with
  | [d] => if isDigitChar d then some (100 * digitVal d) else none
  | [d, e] =>
    if isDigitChar d && isDigitChar e then some (100 * digitVal d + 10 * digitVal e)
    else none
  | [d, e, f] =>
    if isDigitChar d && isDigitChar e && isDigitChar f then
      some (100 * digitVal d + 10 * digitVal e + digitVal f)
    else none
  | _ => none

/-- Reads a quality value such as `1`, `0.9` or `0.125` in thousandths. -/
def parseQMilli (l : List Char) : Option Nat :=
  match splitOnChar '.' l with
  | [i] => (natOfDigits i).map (fun n => n * 1000)
  | [i, f] =>
    match natOfDigits i, fracMilli f with
    | some iv, some fv => some (iv * 1000 + fv)
    | _, _ => none
  | _ => none

/-- Character admissible in a language tag (letters, digits, hyphen). -/
def isTagChar (c : Char) : Bool :=
  ('a' ≤ c && c ≤ 'z') || ('A' ≤ c && c ≤ 'Z') || ('0' ≤ c && c ≤ '9') || c = '-'

/-- A language tag is a non-empty run of tag characters. -/
def validTag (l : List Char) : Bool :=
  !l.isEmpty && l.all isTagChar

/-- Extracts the quality weight (in thousandths) from the parameter list of
one header entry: `none` marks a malformed `q=` parameter, absence of a
`q=` parameter defaults to weight 1. -/
def qOfParams : List (List Char) → Option Nat
  | [] => some 1000
  | p :: ps =>
    match trimSpaces p with
    | 'q' :: '=' :: v => parseQMilli v
    | _ => qOfParams ps

/-- Parses one comma-separated entry of the preference header into a
(tag, weight) pair; entries with an invalid tag, a malformed weight, a
weight of zero or a weight above 1 are dropped. -/
def parseEntry (entry : List Char) : Option (String × Nat) :=
  match splitOnChar ';' entry with
  | [] => none
  | tagPart :: params =>
    let tag := trimSpaces tagPart
    if validTag tag then
      match qOfParams params with
      | none => none
      | some q => if q = 0 || 1000 < q then none else some (String.mk tag, q)
    else none

/-- Modelled from the spec: the header-parsing capability (`Negotiator` in
the source, which is library code outside the repository): `parse(headerString)
-> ordered list of (tag, weight)` over a comma-separated list of
language-tag/weight pairs such as `en-US,en;q=0.9,ar;q=0.8`; malformed
entries are dropped rather than reported. -/
def parseAcceptLanguage (header : String) : List (String × Nat) :=
  (splitOnChar ',' header.data).filterMap parseEntry

/-- Primary language subtag of a tag: everything before the first hyphen
(`en-US` has primary subtag `en`). -/
def primarySubtag (tag : String) : String :=
  String.mk (tag.data.takeWhile (fun c => c ≠ '-'))

/-- Modelled from the spec: how one preference tag matches one supported
locale under standard language-tag negotiation — `some true` for an exact
tag match, `some false` for a language-only (primary-subtag) match,
`none` for no match. -/
def tagMatches (tag locale : String) : Option Bool :=
  if tag = locale then some true
  else if primarySubtag tag = locale then some false
  else none

/-- Strict comparison of match scores: a higher weight wins, and at equal
weight an exact match beats a language-only match. -/
def scoreBetter (a b : Nat × Bool) : Bool :=
  b.1 < a.1 || (a.1 == b.1 && a.2 && !b.2)

/-- Modelled from the spec: the score of a supported locale against the
client's ranked preferences — the best (weight, exactness) pair among the
preference entries matching that locale, `none` when no entry matches. -/
def score : List (String × Nat) → String → Option (Nat × Bool)
  | [], _ => none
  | p :: ps, locale =>
    match tagMatches p.1 locale, score ps locale with
    | none, acc => acc
    | some ex, none => some (p.2, ex)
    | some ex, some b => if scoreBetter (p.2, ex) b then some (p.2, ex) else some b

/-- Modelled from the spec: ranking of the supported locales — the locale
with the strictly best score wins, and on ties the locale appearing
earlier in the supported list is kept (stable, deterministic tie-break). -/
def pickBest (prefs : List (String × Nat)) : List String → Option (String × (Nat × Bool))
  | [] => none
  | s :: rest =>
    match score prefs s, pickBest prefs rest with
    | none, t => t
    | some sc, none => some (s, sc)
    | some sc, some (s', sc') =>
      if scoreBetter sc' sc then some (s', sc') else some (s, sc)

/-- Modelled from the spec: `resolveLocale(preferences, supported, default)`
(the `match` call of `@formatjs/intl-localematcher` in the source, which is
library code outside the repository) — the highest-ranked supported locale,
or the default when no preference matches any supported locale. -/
def resolveLocale (prefs : List (String × Nat)) (supported : List String)
    (dflt : String) : String :=
  match pickBest prefs supported with
  | some (s, _) => s
  | none => dflt

/-- The header substitution of `src/middleware.ts` line 9-10:
`request.headers.get("accept-language") || defaultLocale` — an absent
header yields `null` and an empty header is falsy, so both are replaced by
the Default Locale code before negotiation. -/
def acceptLanguageOf (header : Option String) : String :=
  match header with
  | none => defaultLocale
  | some s => if s = "" then defaultLocale else s

/-- `getLocale` of `src/middleware.ts` lines 8-15: substitute the default
for a missing header, parse the preference list, and negotiate against the
supported locales with the default as fallback. -/
def getLocale (header : Option String) : String :=
  resolveLocale (parseAcceptLanguage (acceptLanguageOf header)) locales defaultLocale

/-- Removes one trailing `'/'` from a character list; helper for the URL
serialization model. -/
def stripTrailingSlash : List Char → List Char
  | [] => []
  | c :: rest =>
    match rest with
    | [] => if c = '/' then [] else [c]
    | _ :: _ => c :: stripTrailingSlash rest

/-- Data-level trailing-slash normalization: drop one trailing slash, with
the root path mapping back to the single-slash path. -/
def removeTrailingSlashData (l : List Char) : List Char :=
  match stripTrailingSlash l with
  | [] => ['/']
  | r => r

/-- Modelled from the spec: the URL serialization that the framework
(`NextResponse.redirect` on `request.nextUrl`, library code outside the
repository) applies to the assigned pathname when emitting the redirect —
a trailing slash is not produced, so a path of exactly `/` redirects to
`/<locale>` and never to `/<locale>/`. -/
def removeTrailingSlash (s : String) : String :=
  String.mk (removeTrailingSlashData s.data)

/-- `middleware` of `src/middleware.ts` lines 17-31, viewed at the level of
the request pathname and preference header: pass through when the pathname
already has a supported locale segment, otherwise redirect to the pathname
prefixed with the resolved locale (`"/" + locale + pathname`, then
serialized). -/
def routeRequest (pathname : String) (header : Option String) : RouteResult :=
  if pathnameHasLocale pathname then RouteResult.passThrough
  else RouteResult.redirectTo (removeTrailingSlash ("/" ++ getLocale header ++ pathname))

/-- The components of the request URL (`request.nextUrl`) that the
middleware can observe or modify. -/
structure NextURL where
  protocol : String
  host : String
  pathname : String
  search : String
  hash : String
deriving DecidableEq

/-- `middleware` of `src/middleware.ts` at the level of whole URLs: the
source mutates only `request.nextUrl.pathname` before redirecting to
`request.nextUrl`, so the redirect target (`some` result) keeps every
other URL component; `none` is the pass-through outcome. -/
def middlewareURL (u : NextURL) (header : Option String) : Option NextURL :=
  if pathnameHasLocale u.pathname then none
  else
    some { u with
            pathname := removeTrailingSlash ("/" ++ getLocale header ++ u.pathname) }

/-! ## Shared lemmas -/

/-- A locale produced by `pickBest` is drawn from the supported list. -/
theorem pickBest_mem (prefs : List (String × Nat)) :
    ∀ (sup : List String) (s : String) (sc : Nat × Bool),
      pickBest prefs sup = some (s, sc) → s ∈ sup := by
  intro sup
  induction sup with
  | nil => intro s sc h; simp [pickBest] at h
  | cons a rest ih =>
    intro s sc h
    cases hsc : score prefs a with
    | none =>
      simp only [pickBest, hsc] at h
      exact List.mem_cons_of_mem _ (ih s sc h)
    | some v =>
      cases hpb : pickBest prefs rest with
      | none =>
        simp only [pickBest, hsc, hpb, Option.some.injEq, Prod.mk.injEq] at h
        exact h.1 ▸ List.mem_cons_self a rest
      | some t =>
        simp only [pickBest, hsc, hpb] at h
        by_cases hb : scoreBetter t.2 v
        · rw [if_pos hb] at h
          have : s = t.1 := by
            cases t; simpa using congrArg (fun o => (Option.map Prod.fst o)) h.symm
          exact List.mem_cons_of_mem _ (this ▸ ih t.1 t.2 (by cases t; simp [hpb]))
        · rw [if_neg hb] at h
          simp only [Option.some.injEq, Prod.mk.injEq] at h
          exact h.1 ▸ List.mem_cons_self a rest

/-- `resolveLocale` stays inside the supported list whenever the default
is itself supported. -/
theorem resolveLocale_mem (prefs : List (String × Nat)) (sup : List String)
    (dflt : String) (hd : dflt ∈ sup) : resolveLocale prefs sup dflt ∈ sup := by
  unfold resolveLocale
  cases hpb : pickBest prefs sup with
  | none => exact hd
  | some t => cases t with | mk s sc => exact pickBest_mem prefs sup s sc hpb

/-- `getLocale` always returns a member of the Supported Locale Set. -/
theorem getLocale_mem (header : Option String) : getLocale header ∈ locales :=
  resolveLocale_mem _ _ _ (by decide)

/-- Unfolding step of `stripTrailingSlash` on a list of two or more
characters. -/
theorem stripTrailingSlash_cons (c x : Char) (xs : List Char) :
    stripTrailingSlash (c :: x :: xs) = c :: stripTrailingSlash (x :: xs) := rfl

/-- The serialized `en`-prefixed and `ar`-prefixed forms of one pathname
are distinct character lists. -/
theorem removeTrailingSlashData_en_ar (P : List Char) :
    removeTrailingSlashData ('/' :: 'e' :: 'n' :: P) ≠
      removeTrailingSlashData ('/' :: 'a' :: 'r' :: P) := by
  cases P with
  | nil => decide
  | cons x xs =>
    intro h
    unfold removeTrailingSlashData at h
    rw [stripTrailingSlash_cons, stripTrailingSlash_cons, stripTrailingSlash_cons,
        stripTrailingSlash_cons, stripTrailingSlash_cons, stripTrailingSlash_cons] at h
    simp at h

/-- The serialized `en`-prefixed and `ar`-prefixed forms of one pathname
are distinct strings. -/
theorem removeTrailingSlash_en_ar (p : String) :
    removeTrailingSlash ("/en" ++ p) ≠ removeTrailingSlash ("/ar" ++ p) :=
  fun h => removeTrailingSlashData_en_ar p.data (congrArg String.data h)

/-- No preference entry ever scores: empty preference lists score nothing. -/
theorem score_nil (locale : String) : score [] locale = none := rfl

/-- A score comparison of a score with itself is never strict. -/
theorem scoreBetter_self (sc : Nat × Bool) : scoreBetter sc sc = false := by
  cases sc with
  | mk w e => cases e <;> simp [scoreBetter]

/-- A locale appearing in the preference list with weight `w` scores at
least `w`. -/
theorem score_ge_of_mem :
    ∀ (prefs : List (String × Nat)) (l : String) (w : Nat),
      (l, w) ∈ prefs → ∃ w2 e2, score prefs l = some (w2, e2) ∧ w ≤ w2 := by
  intro prefs l w hmem
  induction prefs with
  | nil => simp at hmem
  | cons p ps ih =>
    rcases List.mem_cons.mp hmem with heq | hmem2
    · have hp1 : p.1 = l := by rw [← heq]
      have hp2 : p.2 = w := by rw [← heq]
      have htm : tagMatches p.1 l = some true := by rw [hp1]; simp [tagMatches]
      cases hsc : score ps l with
      | none =>
        refine ⟨p.2, true, ?_, Nat.le_of_eq hp2.symm⟩
        simp [score, htm, hsc]
      | some b =>
        by_cases hb : scoreBetter (p.2, true) b = true
        · refine ⟨p.2, true, ?_, Nat.le_of_eq hp2.symm⟩
          simp [score, htm, hsc, hb]
        · have hble : ¬ b.1 < p.2 := by
            intro hlt; exact hb (by simp [scoreBetter, hlt])
          refine ⟨b.1, b.2, ?_, by omega⟩
          have hbf : scoreBetter (p.2, true) b = false := by
            rw [Bool.eq_false_iff]; exact hb
          simp [score, htm, hsc, hbf]
    · obtain ⟨w2, e2, hs, hw⟩ := ih hmem2
      cases htm : tagMatches p.1 l with
      | none => exact ⟨w2, e2, by simp [score, htm, hs], hw⟩
      | some ex =>
        by_cases hb : scoreBetter (p.2, ex) (w2, e2) = true
        · refine ⟨p.2, ex, by simp [score, htm, hs, hb], ?_⟩
          have : w2 < p.2 ∨ (p.2 = w2 ∧ ex = true) ∧ e2 = false := by
            simpa [scoreBetter] using hb
          rcases this with h | ⟨⟨h, _⟩, _⟩ <;> omega
        · have hbf : scoreBetter (p.2, ex) (w2, e2) = false := by
            rw [Bool.eq_false_iff]; exact hb
          exact ⟨w2, e2, by simp [score, htm, hs, hbf], hw⟩

/-- If every preference entry matching a locale has weight below `w`, that
locale's score stays below `w`. -/
theorem score_lt_of_bound (l : String) (w : Nat) :
    ∀ (prefs : List (String × Nat)),
      (∀ t w', (t, w') ∈ prefs → tagMatches t l ≠ none → w' < w) →
      ∀ w2 e2, score prefs l = some (w2, e2) → w2 < w := by
  intro prefs
  induction prefs with
  | nil => intro _ w2 e2 h; simp [score] at h
  | cons p ps ih =>
    intro hbound w2 e2 h
    have hbtail : ∀ t w', (t, w') ∈ ps → tagMatches t l ≠ none → w' < w :=
      fun t w' hm => hbound t w' (List.mem_cons_of_mem _ hm)
    cases htm : tagMatches p.1 l with
    | none =>
      rw [score, htm] at h
      exact ih hbtail w2 e2 h
    | some ex =>
      have hhead : p.2 < w := by
        refine hbound p.1 p.2 ?_ ?_
        · exact List.mem_cons_self p ps
        · rw [htm]; exact Option.some_ne_none ex
      cases hsc : score ps l with
      | none =>
        rw [score, htm, hsc] at h
        simp only [Option.some.injEq, Prod.mk.injEq] at h
        omega
      | some b =>
        have hb2 : b.1 < w := ih hbtail b.1 b.2 (by cases b; exact hsc)
        have h' : (if scoreBetter (p.2, ex) b = true then some (p.2, ex)
            else some b) = some (w2, e2) := by
          rw [score, htm, hsc] at h; exact h
        by_cases hbet : scoreBetter (p.2, ex) b = true
        · rw [if_pos hbet] at h'
          simp only [Option.some.injEq, Prod.mk.injEq] at h'
          omega
        · rw [if_neg hbet] at h'
          have hbeq : b = (w2, e2) := by simpa using h'
          rw [hbeq] at hb2
          exact hb2

/-! ## Claims -/

/-- C1: for every request path that already starts with `/<locale>/` or
equals `/<locale>` for some locale in the Supported Locale Set, the
middleware returns pass-through (no redirect), for every content of the
accept-language preference header. -/
theorem c1_locale_prefixed_path_passes_through (pathname : String)
    (header : Option String) (h : pathnameHasLocale pathname = true) :
    routeRequest pathname header = RouteResult.passThrough := by
  simp [routeRequest, h]

theorem c1_witness :
    pathnameHasLocale "/en/about" = true ∧
      routeRequest "/en/about" (some "ar") = RouteResult.passThrough :=
  ⟨by decide, c1_locale_prefixed_path_passes_through "/en/about" (some "ar") (by decide)⟩

/-- C2: every request path without a supported-locale prefix is redirected,
and the redirect target is the serialized form of the original path
prefixed with exactly one member of the Supported Locale Set. -/
theorem c2_redirect_adds_exactly_one_supported_locale (pathname : String)
    (header : Option String) (h : pathnameHasLocale pathname = false) :
    ∃ l, (l ∈ locales ∧
        routeRequest pathname header =
          RouteResult.redirectTo (removeTrailingSlash ("/" ++ l ++ pathname))) ∧
      ∀ l', l' ∈ locales →
        routeRequest pathname header =
          RouteResult.redirectTo (removeTrailingSlash ("/" ++ l' ++ pathname)) →
        l' = l := by
  have hroute : routeRequest pathname header =
      RouteResult.redirectTo
        (removeTrailingSlash ("/" ++ getLocale header ++ pathname)) := by
    simp [routeRequest, h]
  refine ⟨getLocale header, ⟨getLocale_mem header, hroute⟩, ?_⟩
  intro l' hl' heq
  rw [hroute] at heq
  have heq2 : removeTrailingSlash ("/" ++ getLocale header ++ pathname) =
      removeTrailingSlash ("/" ++ l' ++ pathname) := by
    simpa using heq
  have hg : getLocale header = "en" ∨ getLocale header = "ar" := by
    simpa [locales] using getLocale_mem header
  have hl2 : l' = "en" ∨ l' = "ar" := by simpa [locales] using hl'
  rcases hg with hgv | hgv <;> rcases hl2 with hlv | hlv
  · exact hlv.trans hgv.symm
  · rw [hgv, hlv] at heq2
    exact absurd heq2 (removeTrailingSlash_en_ar pathname)
  · rw [hgv, hlv] at heq2
    exact absurd heq2.symm (removeTrailingSlash_en_ar pathname)
  · exact hlv.trans hgv.symm

theorem c2_witness :
    pathnameHasLocale "/about" = false ∧
      ∃ l, (l ∈ locales ∧
          routeRequest "/about" none =
            RouteResult.redirectTo (removeTrailingSlash ("/" ++ l ++ "/about"))) ∧
        ∀ l', l' ∈ locales →
          routeRequest "/about" none =
            RouteResult.redirectTo (removeTrailingSlash ("/" ++ l' ++ "/about")) →
          l' = l :=
  ⟨by decide, c2_redirect_adds_exactly_one_supported_locale "/about" none (by decide)⟩

/-- C3: a request for the bare root path `/` is redirected to `/<locale>`
with no trailing slash; in particular with a missing preference header the
target is `/en`, not `/en/`. -/
theorem c3_root_redirects_to_bare_locale :
    (∀ header, routeRequest "/" header =
        RouteResult.redirectTo ("/" ++ getLocale header)) ∧
      routeRequest "/" none = RouteResult.redirectTo "/en" := by
  constructor
  · intro header
    have h0 : pathnameHasLocale "/" = false := by decide
    have h1 : routeRequest "/" header =
        RouteResult.redirectTo
          (removeTrailingSlash ("/" ++ getLocale header ++ "/")) := by
      simp [routeRequest, h0]
    have hg : getLocale header = "en" ∨ getLocale header = "ar" := by
      simpa [locales] using getLocale_mem header
    rcases hg with hgv | hgv <;> rw [h1, hgv] <;> decide
  · decide

/-- C4: locale resolution is total and never raises: a missing header, an
empty header and any header whose preference list parses to nothing all
resolve to the Default Locale, and every input resolves to some supported
locale. -/
theorem c4_empty_or_unparseable_resolves_to_default :
    getLocale none = defaultLocale ∧
      getLocale (some "") = defaultLocale ∧
      (∀ s, parseAcceptLanguage s = [] → getLocale (some s) = defaultLocale) ∧
      ∀ header, getLocale header ∈ locales := by
  refine ⟨by decide, by decide, ?_, getLocale_mem⟩
  intro s hs
  by_cases h0 : s = ""
  · rw [h0]; decide
  · have hacc : acceptLanguageOf (some s) = s := by simp [acceptLanguageOf, h0]
    rw [getLocale, hacc, hs]
    decide

theorem c4_witness :
    parseAcceptLanguage ";" = [] ∧ getLocale (some ";") = defaultLocale :=
  ⟨by decide, c4_empty_or_unparseable_resolves_to_default.2.2.1 ";" (by decide)⟩

/-- C5: a supported locale appearing in the preference list strictly above
the weight of every other entry is the resolved locale; concretely, the
path `/about` with header `ar;q=0.9,en;q=0.5` is redirected to
`/ar/about`. -/
theorem c5_highest_weight_supported_locale_wins :
    (∀ (prefs : List (String × Nat)) (l : String) (w : Nat),
        l ∈ locales → (l, w) ∈ prefs →
        (∀ t w', (t, w') ∈ prefs → t ≠ l → w' < w) →
        resolveLocale prefs locales defaultLocale = l) ∧
      routeRequest "/about" (some "ar;q=0.9,en;q=0.5") =
        RouteResult.redirectTo "/ar/about" := by
  constructor
  · intro prefs l w hl hmem hbound
    obtain ⟨w2, e2, hsl, hw2⟩ := score_ge_of_mem prefs l w hmem
    have hlv : l = "en" ∨ l = "ar" := by simpa [locales] using hl
    rcases hlv with hlv | hlv
    · subst hlv
      have hbar : ∀ t w', (t, w') ∈ prefs → tagMatches t "ar" ≠ none → w' < w := by
        intro t w' hm hne
        refine hbound t w' hm ?_
        intro ht
        rw [ht] at hne
        exact hne (by decide)
      cases hsa : score prefs "ar" with
      | none =>
        have hpb : pickBest prefs ["en", "ar"] = some ("en", (w2, e2)) := by
          simp [pickBest, hsl, hsa]
        simp [resolveLocale, locales, hpb]
      | some b =>
        have hblt : b.1 < w :=
          score_lt_of_bound "ar" w prefs hbar b.1 b.2 (by cases b; exact hsa)
        have hnb : scoreBetter b (w2, e2) = false := by
          rw [Bool.eq_false_iff]
          intro hbt
          cases b with
          | mk b1 bex =>
            have : w2 < b1 ∨ (b1 = w2 ∧ bex = true) ∧ e2 = false := by
              simpa [scoreBetter] using hbt
            rcases this with hcon | ⟨⟨hcon, _⟩, _⟩ <;> omega
        have hpb : pickBest prefs ["en", "ar"] = some ("en", (w2, e2)) := by
          simp [pickBest, hsl, hsa, hnb]
        simp [resolveLocale, locales, hpb]
    · subst hlv
      have hben : ∀ t w', (t, w') ∈ prefs → tagMatches t "en" ≠ none → w' < w := by
        intro t w' hm hne
        refine hbound t w' hm ?_
        intro ht
        rw [ht] at hne
        exact hne (by decide)
      cases hse : score prefs "en" with
      | none =>
        have hpb : pickBest prefs ["en", "ar"] = some ("ar", (w2, e2)) := by
          simp [pickBest, hse, hsl]
        simp [resolveLocale, locales, hpb]
      | some b =>
        have hblt : b.1 < w :=
          score_lt_of_bound "en" w prefs hben b.1 b.2 (by cases b; exact hse)
        have hyb : scoreBetter (w2, e2) b = true := by
          cases b with
          | mk b1 bex =>
            have hlt : b1 < w2 := by omega
            simp [scoreBetter, hlt]
        have hpb : pickBest prefs ["en", "ar"] = some ("ar", (w2, e2)) := by
          simp [pickBest, hse, hsl, hyb]
        simp [resolveLocale, locales, hpb]
  · decide

theorem c5_witness :
    ("ar" ∈ locales ∧ ("ar", 900) ∈ [("ar", 900), ("en", 500)]) ∧
      resolveLocale [("ar", 900), ("en", 500)] locales defaultLocale = "ar" :=
  ⟨⟨by decide, by decide⟩,
    c5_highest_weight_supported_locale_wins.1 [("ar", 900), ("en", 500)] "ar" 900
      (by decide) (by decide)
      (by
        intro t w' hm hne
        rcases List.mem_cons.mp hm with h1 | h2
        · exact absurd (congrArg Prod.fst h1) hne
        · rcases List.mem_cons.mp h2 with h3 | h4
          · have hv : w' = 500 := congrArg Prod.snd h3
            omega
          · simp at h4)⟩

/-- C6: when the two supported locales score equally against the client's
preferences, resolution returns `en`, the locale appearing earlier in the
supported set's declared order — the tie-break is stable and
deterministic. -/
theorem c6_equal_score_tie_breaks_to_earlier_supported
    (prefs : List (String × Nat)) (sc : Nat × Bool)
    (hen : score prefs "en" = some sc) (har : score prefs "ar" = some sc) :
    resolveLocale prefs locales defaultLocale = "en" := by
  have hpb : pickBest prefs ["en", "ar"] = some ("en", sc) := by
    simp [pickBest, hen, har, scoreBetter_self]
  simp [resolveLocale, locales, hpb]

theorem c6_witness :
    (score [("en", 1000), ("ar", 1000)] "en" = some (1000, true) ∧
        score [("en", 1000), ("ar", 1000)] "ar" = some (1000, true)) ∧
      resolveLocale [("en", 1000), ("ar", 1000)] locales defaultLocale = "en" :=
  ⟨⟨by decide, by decide⟩,
    c6_equal_score_tie_breaks_to_earlier_supported [("en", 1000), ("ar", 1000)]
      (1000, true) (by decide) (by decide)⟩

/-- C7: the path `/fr/about` has no supported-locale prefix, the preference
`fr` matches nothing supported and resolves to the default, and the result
is a redirect to `/en/fr/about`. -/
theorem c7_unsupported_language_falls_back_to_default :
    pathnameHasLocale "/fr/about" = false ∧
      getLocale (some "fr") = defaultLocale ∧
      routeRequest "/fr/about" (some "fr") =
        RouteResult.redirectTo "/en/fr/about" :=
  ⟨by decide, by decide, by decide⟩

/-- C8: the middleware outcome is a pure, deterministic function of the
request path and preference header alone — two invocations with the same
path and the same header produce the same outcome, the functions taking no
session or persisted state. -/
theorem c8_route_is_deterministic_in_path_and_header
    (p1 p2 : String) (h1 h2 : Option String) (hp : p1 = p2) (hh : h1 = h2) :
    routeRequest p1 h1 = routeRequest p2 h2 := by
  rw [hp, hh]

theorem c8_witness :
    routeRequest "/about" (some "ar") = routeRequest "/about" (some "ar") :=
  c8_route_is_deterministic_in_path_and_header "/about" "/about"
    (some "ar") (some "ar") rfl rfl

/-- C9: a missing accept-language header is substituted by the Default
Locale code before negotiation, so it is negotiated exactly like the
literal header `en` and resolves to `en` — not treated as an empty
preference list. -/
theorem c9_missing_header_negotiates_as_default_code :
    acceptLanguageOf none = defaultLocale ∧
      getLocale none = getLocale (some "en") ∧
      getLocale none = "en" :=
  ⟨rfl, rfl, by decide⟩

/-- C10: on the redirect branch the middleware rewrites only the pathname
of the request URL; the protocol, host, query string and fragment of the
redirect target are identical to those of the incoming request. -/
theorem c10_redirect_changes_only_the_pathname (u : NextURL)
    (header : Option String) (u' : NextURL)
    (h : middlewareURL u header = some u') :
    u'.protocol = u.protocol ∧ u'.host = u.host ∧ u'.search = u.search ∧
      u'.hash = u.hash ∧
      u'.pathname = removeTrailingSlash ("/" ++ getLocale header ++ u.pathname) := by
  by_cases hp : pathnameHasLocale u.pathname = true
  · simp [middlewareURL, hp] at h
  · have hp2 : pathnameHasLocale u.pathname = false := by
      rw [Bool.eq_false_iff]; exact hp
    simp only [middlewareURL, hp2, Bool.false_eq_true, if_false,
      Option.some.injEq] at h
    rw [← h]
    exact ⟨rfl, rfl, rfl, rfl, rfl⟩

theorem c10_witness :
    middlewareURL (NextURL.mk "https:" "example.com" "/about" "?q=1" "#top")
        (some "ar") =
      some (NextURL.mk "https:" "example.com" "/ar/about" "?q=1" "#top") ∧
      ((NextURL.mk "https:" "example.com" "/ar/about" "?q=1" "#top").protocol =
          (NextURL.mk "https:" "example.com" "/about" "?q=1" "#top").protocol ∧
        (NextURL.mk "https:" "example.com" "/ar/about" "?q=1" "#top").host =
          (NextURL.mk "https:" "example.com" "/about" "?q=1" "#top").host ∧
        (NextURL.mk "https:" "example.com" "/ar/about" "?q=1" "#top").search =
          (NextURL.mk "https:" "example.com" "/about" "?q=1" "#top").search ∧
        (NextURL.mk "https:" "example.com" "/ar/about" "?q=1" "#top").hash =
          (NextURL.mk "https:" "example.com" "/about" "?q=1" "#top").hash ∧
        (NextURL.mk "https:" "example.com" "/ar/about" "?q=1" "#top").pathname =
          removeTrailingSlash ("/" ++ getLocale (some "ar") ++
            (NextURL.mk "https:" "example.com" "/about" "?q=1" "#top").pathname)) :=
  ⟨by decide,
    c10_redirect_changes_only_the_pathname
      (NextURL.mk "https:" "example.com" "/about" "?q=1" "#top") (some "ar")
      (NextURL.mk "https:" "example.com" "/ar/about" "?q=1" "#top") (by decide)⟩

end Nexcn
